import Mathlib

/-!
Verification of the TERR_A conversational report bot (src/bot.py).

The development shallow-embeds, in Lean, the parts of `bot.py` that the
session state machine is built from: the fuzzy list resolver
(`find_best_match`, a faithful model of Python `difflib.get_close_matches`
with `n=1, cutoff=0.4`), the in-memory session store
(`get_state` / `set_state` / `clear_state` / `save_to_history` / `go_back`),
the hour-budget query (`sum_hours_for_user_date`), report insertion
(`insert_report`), the `waiting_hours`, `brig_potato_rows` and
`confirm:worker` handler branches, and the inbound-message deduplication
(`is_message_processed`).

Modelling conventions:
* Python strings are `String` / `List Char`; `str.strip` is modelled on the
  six ASCII whitespace characters Python strips, `str.isdigit` on the ASCII
  digits, `str.lower` on ASCII letters plus the Cyrillic block the
  repository's labels use.  Machine floats appear in the source only inside
  `difflib` ratio comparisons against the cutoff `0.4 = 2/5`; those
  comparisons are carried out here exactly, in cross-multiplied integer
  form, which agrees with the double-precision comparison for every string
  the program can build (the rationals compared are farther apart than the
  rounding error whenever they differ).
* The global mutable dictionaries (`user_states`, `user_history`, the
  `_restoring_state` flag) become an explicit per-user `Store` value
  threaded through the operations; Python's aliasing of the live session
  dict is reproduced by performing the in-place buffer mutations of a
  handler before the `set_state` call, exactly in source order.
* The SQLite table of reports becomes a list of `Report` records in
  insertion order; SQL `NULL` comparison semantics (`x != 'it'` is not
  satisfied by `NULL`, `work_date = NULL` matches nothing) are modelled on
  `Option` fields.
* `go_back` re-dispatches the callback handler on a synthetic object; that
  re-entrant call is a parameter `resume` of the embedding, so theorems can
  state exactly which behaviour of the replayed screen they rely on.
-/

/-! ### Python string primitives -/

/-- The six ASCII whitespace characters removed by Python `str.strip()`. -/
def pyWhitespace (c : Char) : Bool :=
  c == ' ' || c == '\t' || c == '\n' || c == '\r' ||
  c == Char.ofNat 11 || c == Char.ofNat 12

/-- Python `str.strip()` on a character list. -/
def pyStripL (s : List Char) : List Char :=
  ((s.dropWhile pyWhitespace).reverse.dropWhile pyWhitespace).reverse

/-- Python `str.strip()`. -/
def pyStrip (s : String) : String :=
  ⟨pyStripL s.data⟩

/-- ASCII decimal digit test. -/
def isDigitChar (c : Char) : Bool :=
  '0' ≤ c && c ≤ '9'

/-- Python `str.isdigit()` restricted to ASCII digits: non-empty and all
digits. -/
def isDigitL (s : List Char) : Bool :=
  !s.isEmpty && s.all isDigitChar

/-- Python `int(text)` on a string of decimal digits. -/
def digitsToNat (s : List Char) : Nat :=
  s.foldl (fun a c => 10 * a + (c.toNat - 48)) 0

/-- Python `str.lower()` for the alphabets this repository uses: ASCII
letters and the Cyrillic block U+0410..U+042F plus Ё (U+0401). -/
def pyLower (c : Char) : Char :=
  if 'A' ≤ c ∧ c ≤ 'Z' then Char.ofNat (c.toNat + 32)
  else if 0x410 ≤ c.toNat ∧ c.toNat ≤ 0x42F then Char.ofNat (c.toNat + 0x20)
  else if c.toNat = 0x401 then Char.ofNat 0x451
  else c

/-- Python `str.lower()` on a whole string. -/
def strLower (s : String) : String :=
  ⟨s.data.map pyLower⟩

/-! ### difflib.SequenceMatcher, specialised to `isjunk=None`

`find_best_match` calls `difflib.get_close_matches(text.lower(),
name_map.keys(), n=1, cutoff=0.4)`.  `get_close_matches` builds a
`SequenceMatcher` with `isjunk=None`, sets `seq2` to the (lower-cased) user
input and `seq1` to each candidate label in turn, and keeps the candidates
whose `ratio()` clears the cutoff.  With `isjunk=None` the junk set is
empty, so only the `autojunk` popularity heuristic (active when
`len(b) >= 200`) can remove positions from the index `b2j`. -/

/-- Positions of `c` in `b`, ascending — one entry of difflib's `b2j`. -/
def charPositions (b : List Char) (c : Char) : List Nat :=
  (List.range b.length).filter (fun i => b.get? i == some c)

/-- difflib's `b2j` lookup with the `autojunk` heuristic: when `b` has at
least 200 elements, characters occurring more than `len(b) // 100 + 1`
times are "popular" and dropped from the index. -/
def b2j (b : List Char) (c : Char) : List Nat :=
  let idxs := charPositions b c
  if b.length ≥ 200 && decide (idxs.length > b.length / 100 + 1) then []
  else idxs

/-- Equality of two optional characters, false when either is absent. -/
def optCharEq : Option Char → Option Char → Bool
  | some x, some y => x == y
  | _, _ => false

/-- Inner loop of `find_longest_match` for a fixed row `i`: walk the
in-range positions `js` of `a[i]` in `b`, building the new `j2len` map and
updating the best block `(besti, bestj, bestsize)`.  `j2len j` is the
length of the longest common suffix ending at the previous row and column
`j`. -/
def dpRow (i : Nat) (j2len : Nat → Nat) :
    List Nat → (Nat → Nat) → Nat × Nat × Nat → (Nat → Nat) × (Nat × Nat × Nat)
  | [], acc, best => (acc, best)
  | j :: js, acc, best =>
    let k := (if j = 0 then 0 else j2len (j - 1)) + 1
    let acc' := fun j' => if j' = j then k else acc j'
    let best' := if k > best.2.2 then (i + 1 - k, j + 1 - k, k) else best
    dpRow i j2len js acc' best'

/-- Outer loop of `find_longest_match` over the rows `is = [alo, ahi)`. -/
def dpLoop (a b : List Char) (blo bhi : Nat) :
    List Nat → (Nat → Nat) → Nat × Nat × Nat → Nat × Nat × Nat
  | [], _, best => best
  | i :: is', j2len, best =>
    let js := match a.get? i with
      | some c => (b2j b c).filter (fun j => blo ≤ j && j < bhi)
      | none => []
    let (j2len', best') := dpRow i j2len js (fun _ => 0) best
    dpLoop a b blo bhi is' j2len' best'

/-- The left-extension loop of `find_longest_match`, with explicit fuel
(each pass decrements `besti`, which stays above `alo`, so fuel `besti`
is always enough; the junk set is empty with `isjunk=None`, so the
`isbjunk` guards of the source are vacuous). -/
def extendLeftF (a b : List Char) (alo blo : Nat) :
    Nat → Nat → Nat → Nat → Nat × Nat × Nat
  | 0, besti, bestj, bestsize => (besti, bestj, bestsize)
  | fuel + 1, besti, bestj, bestsize =>
    if alo < besti ∧ blo < bestj ∧
        optCharEq (a.get? (besti - 1)) (b.get? (bestj - 1)) = true then
      extendLeftF a b alo blo fuel (besti - 1) (bestj - 1) (bestsize + 1)
    else (besti, bestj, bestsize)

/-- The left-extension loop at its sufficient fuel. -/
def extendLeft (a b : List Char) (alo blo besti bestj bestsize : Nat) :
    Nat × Nat × Nat :=
  extendLeftF a b alo blo besti besti bestj bestsize

/-- The right-extension loop of `find_longest_match`, with explicit fuel
(each pass increments `bestsize` while `besti + bestsize < ahi`, so fuel
`ahi` is always enough). -/
def extendRightF (a b : List Char) (ahi bhi besti bestj : Nat) :
    Nat → Nat → Nat
  | 0, bestsize => bestsize
  | fuel + 1, bestsize =>
    if besti + bestsize < ahi ∧ bestj + bestsize < bhi ∧
        optCharEq (a.get? (besti + bestsize))
          (b.get? (bestj + bestsize)) = true then
      extendRightF a b ahi bhi besti bestj fuel (bestsize + 1)
    else bestsize

/-- The right-extension loop at its sufficient fuel. -/
def extendRight (a b : List Char) (ahi bhi besti bestj bestsize : Nat) :
    Nat :=
  extendRightF a b ahi bhi besti bestj ahi bestsize

/-- difflib `SequenceMatcher.find_longest_match(alo, ahi, blo, bhi)` with an
empty junk set: dynamic-programming sweep, then extension on both sides
(the two junk-extension loops of the source never fire). -/
def find_longest_match (a b : List Char) (alo ahi blo bhi : Nat) :
    Nat × Nat × Nat :=
  let best := dpLoop a b blo bhi (List.range' alo (ahi - alo)) (fun _ => 0)
    (alo, blo, 0)
  let best' := extendLeft a b alo blo best.1 best.2.1 best.2.2
  let size := extendRight a b ahi bhi best'.1 best'.2.1 best'.2.2
  (best'.1, best'.2.1, size)

/-- Total size of the matching blocks of `get_matching_blocks`, computed by
the same recursive decomposition, with explicit fuel.  Each recursive call
strictly shrinks the `a`-interval, so fuel `ahi - alo + 1` is always
enough. -/
def matchSizeF (a b : List Char) : Nat → Nat → Nat → Nat → Nat → Nat
  | 0, _, _, _, _ => 0
  | fuel + 1, alo, ahi, blo, bhi =>
    let m := find_longest_match a b alo ahi blo bhi
    if m.2.2 = 0 then 0
    else m.2.2 + matchSizeF a b fuel alo m.1 blo m.2.1 +
      matchSizeF a b fuel (m.1 + m.2.2) ahi (m.2.1 + m.2.2) bhi

/-- `sum(k for _, _, k in get_matching_blocks())` — the `matches` count of
`SequenceMatcher.ratio()`; `ratio() = 2 * matchCount / (len a + len b)`. -/
def matchCount (a b : List Char) : Nat :=
  matchSizeF a b (a.length + 1) 0 a.length 0 b.length

/-- The `matches` count of `SequenceMatcher.quick_ratio()`: characters of
`a` also available in `b`, i.e. the multiset-intersection size. -/
def quickMatchCount (a b : List Char) : Nat :=
  a.dedup.foldl (fun acc c => acc + min (a.count c) (b.count c)) 0

/-- `ratio >= 0.4` in exact arithmetic: `2*m/t >= 2/5` iff `5*m >= t`, and
the source's `if length: ... else 1.0` makes the empty-total case pass. -/
def ratioGeCutoff (m t : Nat) : Bool :=
  5 * m ≥ t

/-- The filter of `get_close_matches` at `cutoff=0.4`:
`real_quick_ratio() >= cutoff and quick_ratio() >= cutoff and
ratio() >= cutoff` for `seq1 = a`, `seq2 = b`. -/
def qualifies04 (a b : List Char) : Bool :=
  ratioGeCutoff (min a.length b.length) (a.length + b.length) &&
  ratioGeCutoff (quickMatchCount a b) (a.length + b.length) &&
  ratioGeCutoff (matchCount a b) (a.length + b.length)

/-- `SequenceMatcher.ratio()` of `(a, b)` as an exact non-negative
rational, numerator first (the source's `2.0*matches/length`, and `1.0`
when both sequences are empty). -/
def ratioVal (a b : List Char) : Nat × Nat :=
  let t := a.length + b.length
  if t = 0 then (1, 1) else (2 * matchCount a b, t)

/-- `ratio x b <= ratio y b`, compared exactly by cross-multiplication. -/
def ratioLe (x y b : List Char) : Prop :=
  (ratioVal x b).1 * (ratioVal y b).2 ≤ (ratioVal y b).1 * (ratioVal x b).2

instance (x y b : List Char) : Decidable (ratioLe x y b) := by
  unfold ratioLe; infer_instance

/-- The tuple comparison `(ratio, label) > (ratio, label)` used by
`heapq.nlargest` over the `(s.ratio(), x)` pairs of `get_close_matches`:
strictly larger ratio, or equal ratio and strictly larger string. -/
def tupGT (x y : String) (b : List Char) : Bool :=
  let rx := ratioVal x.data b
  let ry := ratioVal y.data b
  (decide (rx.1 * ry.2 > ry.1 * rx.2)) ||
  ((rx.1 * ry.2 == ry.1 * rx.2) && decide (y < x))

/-- `difflib.get_close_matches(b, keys, n=1, cutoff=0.4)`: keep the keys
passing the cutoff chain and return the maximum by `(ratio, key)`, or
`none`. -/
def gcmStep (b : List Char) (x : String) (best : Option String) :
    Option String :=
  if qualifies04 x.data b then
    match best with
    | none => some x
    | some y => if tupGT x y b then some x else some y
  else best

/-- The fold over the candidate keys. -/
def gcmFold (b : List Char) : List String → Option String → Option String
  | [], best => best
  | x :: xs, best => gcmFold b xs (gcmStep b x best)

/-- `get_close_matches(word=b, possibilities=keys, n=1, cutoff=0.4)`
specialised to its first (and only) result. -/
def get_close_matches1 (b : List Char) (keys : List String) : Option String :=
  gcmFold b keys none

/-! ### find_best_match (bot.py lines 16-40) -/

/-- Python `dict` assignment `m[k] = v`: overwrite in place, else append. -/
def dictInsert (m : List (String × (Int × String))) (k : String)
    (v : Int × String) : List (String × (Int × String)) :=
  if m.any (fun p => p.1 == k) then
    m.map (fun p => if p.1 == k then (k, v) else p)
  else m ++ [(k, v)]

/-- `name_map = {item[1].lower(): item for item in items}`. -/
def name_map (items : List (Int × String)) : List (String × (Int × String)) :=
  items.foldl (fun m it => dictInsert m (strLower it.2) it) []

/-- `find_best_match(user_input, items)`: trim; empty resolves to none;
an all-digit input naming a valid 1-based index returns that item
directly; otherwise fuzzy-match the lower-cased input against the
lower-cased labels with `get_close_matches(..., n=1, cutoff=0.4)`. -/
def find_best_match (user_input : String) (items : List (Int × String)) :
    Option (Int × String) :=
  let text := pyStripL user_input.data
  if text.isEmpty then none
  else
    let byIndex : Option (Int × String) :=
      if isDigitL text then
        let n := digitsToNat text
        if 1 ≤ n ∧ n ≤ items.length then items.get? (n - 1) else none
      else none
    match byIndex with
    | some it => some it
    | none =>
      let nm := name_map items
      let b := text.map pyLower
      match get_close_matches1 b (nm.map (·.1)) with
      | some k => List.lookup k nm
      | none => none

/-! ### Session store and history stack (bot.py lines 229-347)

The global dictionaries `user_states[user_id]`, `user_history[user_id]` and
the module flag `_restoring_state` are gathered per user into `Store`.
The buffer dict `state["data"]` is modelled as a record of the keys the
branches under verification read and write. -/

/-- The nested `state["data"]["work"]` dict of the worker flow. -/
structure WorkData where
  date : Option String := none
  activity : Option String := none
  location : Option String := none
  loc_grp : Option String := none
  grp : Option String := none
  work_type : Option String := none
deriving DecidableEq, Repr

/-- The `temp_report` dict built at the end of the `waiting_hours`
branch. -/
structure TempReport where
  location : Option String := none
  loc_grp : Option String := none
  activity : Option String := none
  act_grp : Option String := none
  work_date : Option String := none
  hours : Int := 0
deriving DecidableEq, Repr

/-- The session buffer `state["data"]`, as the record of keys used by the
verified branches.  The empty dict `{}` is the all-`none` record. -/
structure Buffer where
  work : Option WorkData := none
  locs : Option (List (Int × String)) := none
  temp_report : Option TempReport := none
  rows : Option Int := none
  field : Option String := none
  date : Option String := none
  work_type : Option String := none
deriving DecidableEq, Repr

/-- The empty buffer `{}`. -/
def Buffer.empty : Buffer := {}

/-- One user's session: `{"state": ..., "data": ...}`. -/
structure Sess where
  state : Option String
  data : Buffer
deriving DecidableEq, Repr

/-- A history entry pushed by `save_to_history`. -/
structure HEntry where
  state : String
  data : Buffer
  back_callback : String
deriving DecidableEq, Repr

/-- One user's slice of the global state: session, history stack (append
and pop at the list's end, as the Python lists do) and the
`_restoring_state` flag. -/
structure Store where
  sess : Sess
  history : List HEntry
  restoring : Bool
deriving DecidableEq, Repr

/-- The session `get_state` creates for an unknown user:
`{"state": None, "data": {}}`. -/
def default_session : Sess := ⟨none, Buffer.empty⟩

/-- `get_state(user_id)` — pure read (creation on first access is
`default_session`). -/
def get_state (st : Store) : Sess := st.sess

/-- `save_to_history(user_id, back_callback)`: skipped while restoring;
pushes a copy of the current session when it has a non-`None` state;
trims the stack to its last 10 entries. -/
def save_to_history (st : Store) (back_callback : String) : Store :=
  if st.restoring then st
  else
    match st.sess.state with
    | none => st
    | some s =>
      let h := st.history ++ [⟨s, st.sess.data, back_callback⟩]
      { st with history := if h.length > 10 then h.drop (h.length - 10) else h }

/-- `set_state(user_id, state, data, save_to_history, back_callback)`:
push the current session to history when the flag is set, both the old and
the new state are non-`None` and the callback is truthy; then overwrite
the state, and the data when one is given. -/
def set_state (st : Store) (state : Option String) (data : Option Buffer)
    (saveHist : Bool) (back_callback : Option String) : Store :=
  let st1 :=
    match back_callback with
    | some cb =>
      if saveHist && st.sess.state.isSome && state.isSome && cb != "" then
        save_to_history st cb
      else st
    | none => st
  { st1 with
    sess := { state := state,
              data := match data with
                      | some d => d
                      | none => st1.sess.data } }

/-- `clear_state(user_id)`: reset the session and wipe the history. -/
def clear_state (st : Store) : Store :=
  { sess := default_session, history := [], restoring := st.restoring }

/-- Outcome of `go_back`: the Python function returns `False` (no history,
or an entry without callback), returns `True`, or lets an exception from
the replayed handler propagate. -/
inductive BackResult where
  | returnedFalse
  | returnedTrue
  | raised
deriving DecidableEq, Repr

/-- `go_back(client, user_id)`.  `resume cb` stands for the re-entrant
`handle_callback` call on the synthetic callback object; it returns the
store it leaves behind and whether it raised.  The `finally` block clears
the restoring flag on both exits. -/
def go_back (resume : String → Store → Store × Bool) (st : Store) :
    Store × BackResult :=
  match st.history.getLast? with
  | none => (st, .returnedFalse)
  | some e =>
    let st1 : Store :=
      { sess := ⟨some e.state, e.data⟩,
        history := st.history.dropLast,
        restoring := st.restoring }
    if e.back_callback != "" then
      let st2 := { st1 with restoring := true }
      let r := resume e.back_callback st2
      ({ r.1 with restoring := false },
       if r.2 then .raised else .returnedTrue)
    else (st1, .returnedFalse)

/-- One forward transition of the step graph: the data a handler passes to
`set_state` on success, with a truthy back callback. -/
structure FwdTrans where
  step : String
  data : Buffer
  cb : String
deriving DecidableEq, Repr

/-- A successful forward transition that records history:
`set_state(user_id, step, data, save_to_history=True, back_callback=cb)`. -/
def forward (st : Store) (t : FwdTrans) : Store :=
  set_state st (some t.step) (some t.data) true (some t.cb)

/-- Run a list of forward transitions left to right. -/
def forwards (st : Store) : List FwdTrans → Store
  | [] => st
  | t :: ts => forwards (forward st t) ts

/-- Run `back` `n` times. -/
def backs (resume : String → Store → Store × Bool) : Nat → Store → Store
  | 0, st => st
  | n + 1, st => backs resume n (go_back resume st).1

/-! ### Reports table and hour-budget query (bot.py lines 617-677) -/

/-- One row of the `reports` table, in insertion (`created_at`) order
within the list that models the table. -/
structure Report where
  id : Nat
  user_id : String
  reg_name : Option String := none
  location : Option String := none
  location_grp : Option String := none
  activity : Option String := none
  activity_grp : Option String := none
  work_date : Option String := none
  hours : Int
deriving DecidableEq, Repr

/-- SQL `=` between a column and a parameter: `NULL` matches nothing. -/
def sqlEq : Option String → Option String → Bool
  | some x, some y => x == y
  | _, _ => false

/-- SQL `col != 'lit'`: not satisfied when the column is `NULL`. -/
def sqlNe (x : Option String) (lit : String) : Bool :=
  match x with
  | some v => v != lit
  | none => false

/-- The WHERE clause of `sum_hours_for_user_date`: user and date match;
`id<>?` only when `exclude_report_id` is truthy (Python `if
exclude_report_id:` — `None` and `0` skip the clause); the `'it'` group
exclusions unless `include_it`. -/
def reportCounted (uid : String) (wd : Option String) (excl : Option Nat)
    (include_it : Bool) (r : Report) : Bool :=
  r.user_id == uid && sqlEq r.work_date wd &&
  (match excl with
   | some rid => if rid == 0 then true else r.id != rid
   | none => true) &&
  (include_it || (sqlNe r.location_grp "it" && sqlNe r.activity_grp "it"))

/-- `sum_hours_for_user_date(user_id, work_date, exclude_report_id,
include_it)` — `COALESCE(SUM(hours),0)` over the matching rows. -/
def sum_hours_for_user_date (db : List Report) (uid : String)
    (wd : Option String) (excl : Option Nat) (include_it : Bool) : Int :=
  ((db.filter (reportCounted uid wd excl include_it)).map Report.hours).sum

/-- The fresh `lastrowid` for an insertion. -/
def nextReportId (db : List Report) : Nat :=
  db.foldl (fun m r => max m r.id) 0 + 1

/-- `insert_report(...)`: append the row, return the new table and the
report id (the Google-Sheets export is fire-and-forget and not part of
the state). -/
def insert_report (db : List Report) (uid : String)
    (reg_name location loc_grp activity act_grp work_date : Option String)
    (hours : Int) : List Report × Nat :=
  let rid := nextReportId db
  (db ++ [{ id := rid, user_id := uid, reg_name := reg_name,
            location := location, location_grp := loc_grp,
            activity := activity, activity_grp := act_grp,
            work_date := work_date, hours := hours }], rid)

/-! ### Handler branches under verification -/

/-- The observable reply of a handler branch (message texts abstracted to
their kind, with the data they interpolate). -/
inductive Reply where
  | backPerformed
  | raisedError
  | chooseLocGroup
  | locationList (locs : List (Int × String))
  | errEnterNumber
  | errHoursRange
  | budgetExceeded (maxAddable existing : Int) (records : List Report)
  | confirmWorker (temp : TempReport)
  | staleData
  | savedReport (rid : Nat) (temp : TempReport)
  | errEnterRows
  | promptFieldName
deriving DecidableEq, Repr

/-- The warehouse group constant `GROUP_WARE = "склад"`. -/
def GROUP_WARE : String := "склад"

/-- The `waiting_hours` branch of `handle_text` (bot.py lines 4106-4232).
`resume` is the re-entrant dispatch used by `go_back`; `locations` is what
`list_locations_with_id(GROUP_FIELDS)` returns; `db` is the reports
table; `message_text` arrives already stripped by the dispatcher. -/
def handle_waiting_hours (resume : String → Store → Store × Bool)
    (locations : List (Int × String)) (db : List Report) (uid : String)
    (message_text : String) (st : Store) : Store × Reply :=
  if message_text == "0" || message_text == "back_to_loc" then
    let work_data := (st.sess.data.work).getD {}
    if work_data.loc_grp == some GROUP_WARE then
      match go_back resume st with
      | (st', .returnedTrue) => (st', .backPerformed)
      | (st', .raised) => (st', .raisedError)
      | (st', .returnedFalse) => (st', .chooseLocGroup)
    else
      let data' := { st.sess.data with locs := some locations }
      let st1 := { st with sess := { st.sess with data := data' } }
      let st2 := set_state st1 (some "waiting_location_selection")
        (some data') false none
      (st2, .locationList locations)
  else if !isDigitL message_text.data then (st, .errEnterNumber)
  else
    let hours : Int := digitsToNat message_text.data
    if !(1 ≤ hours && hours ≤ 24) then (st, .errHoursRange)
    else
      let work_data := (st.sess.data.work).getD {}
      let work_date := work_data.date
      let existing := sum_hours_for_user_date db uid work_date none false
      if existing + hours > 24 then
        let existing_reports := db.filter (fun r =>
          r.user_id == uid && sqlEq r.work_date work_date &&
          sqlNe r.location_grp "it" && sqlNe r.activity_grp "it")
        (st, .budgetExceeded (24 - existing) existing existing_reports)
      else
        let temp : TempReport :=
          { location := work_data.location, loc_grp := work_data.loc_grp,
            activity := work_data.activity, act_grp := work_data.grp,
            work_date := work_date, hours := hours }
        let data' := { st.sess.data with temp_report := some temp }
        let st1 := { st with sess := { st.sess with data := data' } }
        let cb : Option String :=
          if work_data.work_type == some "manual" then some "work:manual:crop"
          else none
        let st2 := set_state st1 (some "waiting_confirmation_worker")
          (some data') true cb
        (st2, .confirmWorker temp)

/-- The `confirm:worker` branch of `handle_callback` (bot.py lines
2225-2264): read `temp_report` from the buffer; if absent reply that the
data is stale; otherwise persist it through `insert_report` — with no
hour-budget re-check — and clear the session. -/
def handle_confirm_worker (db : List Report) (uid : String)
    (reg_name : Option String) (st : Store) : Store × List Report × Reply :=
  match st.sess.data.temp_report with
  | none => (st, db, .staleData)
  | some temp =>
    let ins := insert_report db uid reg_name temp.location temp.loc_grp
      temp.activity temp.act_grp temp.work_date temp.hours
    (clear_state st, ins.1, .savedReport ins.2 temp)

/-- The back callback the `brig_potato_rows` branch passes to `set_state`:
`f"brig:report:date:{...}"` when the buffer's `date` is truthy, else
`"menu:brigadier"`. -/
def brigBackCb (data' : Buffer) : String :=
  match data'.date with
  | some d => if d != "" then "brig:report:date:" ++ d else "menu:brigadier"
  | none => "menu:brigadier"

/-- Tail of the `brig_potato_rows` branch after the "0" test: validate the
digits, merge `rows` into the live buffer (the handler's `state` aliases
the session dict), choose the back callback from the buffer's `date`
truthiness, and advance to `brig_potato_field` pushing history. -/
def brigRowsCapture (txt : String) (st : Store) : Store × Reply :=
  if !isDigitL txt.data then (st, .errEnterRows)
  else
    let rows : Int := digitsToNat txt.data
    let data' := { st.sess.data with rows := some rows }
    let st1 := { st with sess := { st.sess with data := data' } }
    let st2 := set_state st1 (some "brig_potato_field") (some data') true
      (some (brigBackCb data'))
    (st2, .promptFieldName)

/-- The `brig_potato_rows` branch of `handle_text` (bot.py lines
4768-4789): on "0" try `go_back` and stop only if it succeeded — when it
returns `False` the input falls through to the digit capture below. -/
def handle_brig_potato_rows (resume : String → Store → Store × Bool)
    (message_text : String) (st : Store) : Store × Reply :=
  let txt := pyStrip message_text
  if txt == "0" then
    match go_back resume st with
    | (st', .returnedTrue) => (st', .backPerformed)
    | (st', .raised) => (st', .raisedError)
    | (st', .returnedFalse) => brigRowsCapture txt st'
  else brigRowsCapture txt st

/-! ### Inbound message deduplication (bot.py lines 233-240) -/

/-- `is_message_processed(msg_id)`: return whether the id was seen, adding
it when not; when the tracked set exceeds 10000 ids it is cleared
entirely. -/
def is_message_processed (s : Finset String) (msg_id : String) :
    Bool × Finset String :=
  if msg_id ∈ s then (true, s)
  else
    let s' := insert msg_id s
    if s'.card > 10000 then (false, ∅) else (false, s')

/-! ### Fixtures and stated invariants -/

/-- The spec's session invariant: an idle session has an empty buffer. -/
def sessionInv (s : Sess) : Prop :=
  s.state = none → s.data = Buffer.empty

/-- A day already filled to the 24-hour cap for user `"u"`. -/
def dbFull : List Report :=
  [{ id := 1, user_id := "u", reg_name := some "U",
     location := some "Поле 1", location_grp := some "поля",
     activity := some "Прополка", activity_grp := some "растениеводство",
     work_date := some "2024-05-01", hours := 24 }]

/-- A buffered worker report of 5 more hours on the same day. -/
def tempOver : TempReport :=
  { location := some "Поле 1", loc_grp := some "поля",
    activity := some "Прополка", act_grp := some "растениеводство",
    work_date := some "2024-05-01", hours := 5 }

/-- A session sitting at the worker confirmation screen with `tempOver`
buffered. -/
def stConfirm : Store :=
  ⟨⟨some "waiting_confirmation_worker",
    { Buffer.empty with temp_report := some tempOver }⟩, [], false⟩

/-- A session at the `brig_potato_rows` capture step with an empty history
stack. -/
def stRows : Store :=
  ⟨⟨some "brig_potato_rows",
    { Buffer.empty with date := some "2024-05-01" }⟩, [], false⟩

/-- A resume routine that re-renders without touching the store. -/
def noResume : String → Store → Store × Bool := fun _ s => (s, false)

/-- A session at `waiting_hours` for a manual-work report on 2024-05-01. -/
def stHours : Store :=
  ⟨⟨some "waiting_hours",
    { Buffer.empty with work := some (
        { date := some "2024-05-01", activity := some "Прополка",
          location := some "Поле 1", loc_grp := some "поля",
          grp := some "растениеводство", work_type := some "manual" } : WorkData) }⟩,
   [], false⟩

/-- A day with 20 hours already committed for user `"u"`. -/
def dbTwenty : List Report :=
  [{ id := 1, user_id := "u", reg_name := some "U",
     location := some "Поле 1", location_grp := some "поля",
     activity := some "Прополка", activity_grp := some "растениеводство",
     work_date := some "2024-05-01", hours := 20 }]

/-! ### C10 — inbound message deduplication -/

/-- C10: the first call for a message id reports it unprocessed and records
it (as long as recording does not push the tracked set past 10000 ids), a
repeat call for a recorded id reports it processed and leaves the set
unchanged, and the call that pushes the set past 10000 ids clears it
entirely, so previously seen ids are reported unprocessed again. -/
theorem dedup_first_then_seen (s : Finset String) (m : String) :
    (m ∈ s → is_message_processed s m = (true, s))
    ∧ (m ∉ s → (is_message_processed s m).1 = false)
    ∧ (m ∉ s → (insert m s).card ≤ 10000 →
        (is_message_processed s m).2 = insert m s ∧
        m ∈ (is_message_processed s m).2)
    ∧ (m ∉ s → (insert m s).card > 10000 →
        (is_message_processed s m).2 = ∅) := by
  refine ⟨fun h => ?_, fun h => ?_, fun h hc => ?_, fun h hc => ?_⟩ <;>
    unfold is_message_processed
  · simp [h]
  · rw [if_neg h]
    dsimp only
    split <;> rfl
  · rw [if_neg h]
    dsimp only
    rw [if_neg (by omega : ¬ (insert m s).card > 10000)]
    exact ⟨rfl, Finset.mem_insert_self m s⟩
  · rw [if_neg h]
    dsimp only
    rw [if_pos hc]

/-- Witness for C10 at a concrete run: a fresh id is reported unprocessed
and recorded, and the second call for it then reports it processed. -/
theorem dedup_first_then_seen_witness :
    (is_message_processed ∅ "wamid.1").1 = false
    ∧ (is_message_processed ∅ "wamid.1").2 = insert "wamid.1" ∅
    ∧ is_message_processed (insert "wamid.1" ∅) "wamid.1" =
        (true, insert "wamid.1" ∅) :=
  ⟨(dedup_first_then_seen ∅ "wamid.1").2.1 (by decide),
   ((dedup_first_then_seen ∅ "wamid.1").2.2.1 (by decide) (by decide)).1,
   (dedup_first_then_seen (insert "wamid.1" ∅) "wamid.1").1 (by decide)⟩

/-! ### C5 — the restoring flag -/

/-- C5: while `back` replays a prior screen every history push is skipped
(the restoring flag suppresses `save_to_history` entirely), and `go_back`
clears the flag as an unconditional cleanup: whatever the invoked resume
routine does to the store — even if it raises — the store `go_back` leaves
behind has the flag false. -/
theorem restoring_flag_cleared :
    (∀ (st : Store) (cb : String), st.restoring = true →
        save_to_history st cb = st)
    ∧ (∀ (resume : String → Store → Store × Bool) (st : Store),
        st.restoring = false → (go_back resume st).1.restoring = false) := by
  constructor
  · intro st cb h
    unfold save_to_history
    simp [h]
  · intro resume st h
    unfold go_back
    cases hl : st.history.getLast? with
    | none => simpa using h
    | some e =>
      by_cases hcb : e.back_callback != "" <;> simp [hcb, h]

/-- Witness for C5: a push attempted while restoring is dropped, and a
resume routine that both corrupts the flag and raises still leaves the
flag false after `go_back`. -/
theorem restoring_flag_cleared_witness :
    save_to_history ⟨⟨some "waiting_hours", Buffer.empty⟩, [], true⟩ "menu:root" =
      ⟨⟨some "waiting_hours", Buffer.empty⟩, [], true⟩
    ∧ (go_back (fun _ s => ({ s with restoring := true }, true))
        ⟨⟨some "waiting_hours", Buffer.empty⟩,
         [⟨"pick_work_group", Buffer.empty, "menu:root"⟩], false⟩).1.restoring
      = false :=
  ⟨restoring_flag_cleared.1 _ "menu:root" rfl,
   restoring_flag_cleared.2 _ _ rfl⟩

/-! ### C6 — idle sessions have empty buffers -/

/-- C6: `currentStep == null ⇒ buffer == {}` holds after every
session-store operation: the session `get_state` creates is idle with an
empty buffer; every `set_state` call — in this program always with a
non-`None` step, as at each of its call sites — leaves an active session;
`clear_state` resets both fields; and `go_back` restores an entry whose
saved step is non-`None`, so the invariant survives, provided the resume
routine it re-dispatches preserves it. -/
theorem idle_empty_buffer :
    sessionInv default_session
    ∧ (∀ (st : Store) (step : String) (data : Option Buffer) (sh : Bool)
        (cb : Option String),
        sessionInv (set_state st (some step) data sh cb).sess)
    ∧ (∀ st : Store, sessionInv (clear_state st).sess)
    ∧ (∀ (resume : String → Store → Store × Bool) (st : Store),
        (∀ cb s, sessionInv s.sess → sessionInv ((resume cb s).1.sess)) →
        sessionInv st.sess → sessionInv ((go_back resume st).1.sess)) := by
  refine ⟨fun _ => rfl, fun st step data sh cb h => ?_, fun st _ => rfl,
    fun resume st hres hst => ?_⟩
  · exact absurd h (by simp [set_state])
  · unfold go_back
    cases hl : st.history.getLast? with
    | none => exact hst
    | some e =>
      by_cases hcb : e.back_callback != ""
      · simp only [hcb, if_true, ite_true]
        intro h
        have h2 : sessionInv ((resume e.back_callback
            { sess := ⟨some e.state, e.data⟩,
              history := st.history.dropLast, restoring := true }).1.sess) :=
          hres _ _ (fun hh => by cases hh)
        exact h2 h
      · simp only [hcb, if_false, ite_false]
        intro h
        cases h

/-- Witness for C6: the invariant after a concrete `set_state`, a concrete
`clear_state` and a concrete `go_back` through a resume routine that
preserves it. -/
theorem idle_empty_buffer_witness :
    sessionInv (set_state stRows (some "brig_potato_field") none true
      (some "menu:brigadier")).sess
    ∧ sessionInv (clear_state stHours).sess
    ∧ sessionInv ((go_back noResume
        ⟨⟨some "waiting_hours", Buffer.empty⟩,
         [⟨"pick_work_group", Buffer.empty, "menu:root"⟩], false⟩).1.sess) :=
  ⟨idle_empty_buffer.2.1 stRows "brig_potato_field" none true
      (some "menu:brigadier"),
   idle_empty_buffer.2.2.1 stHours,
   idle_empty_buffer.2.2.2 noResume _ (fun _ _ h => h) (fun h => by cases h)⟩

/-! ### C8 — invalid input leaves the session untouched -/

/-- C8: at the `waiting_hours` capture step, a malformed (non-digit) or
out-of-range input that is not one of the step's reserved back tokens
leaves the session store byte-for-byte unchanged and re-renders the step
with an inline error, and processing the same invalid input again gives
the identical result — repeated invalid input never corrupts or advances
the state. -/
theorem invalid_input_frame (resume : String → Store → Store × Bool)
    (locations : List (Int × String)) (db : List Report) (uid : String)
    (msg : String) (st : Store)
    (h0 : msg ≠ "0") (hb : msg ≠ "back_to_loc")
    (hinv : isDigitL msg.data = false ∨
      ¬(1 ≤ (digitsToNat msg.data : Int) ∧ (digitsToNat msg.data : Int) ≤ 24)) :
    (handle_waiting_hours resume locations db uid msg st).1 = st
    ∧ ((handle_waiting_hours resume locations db uid msg st).2 = .errEnterNumber
      ∨ (handle_waiting_hours resume locations db uid msg st).2 = .errHoursRange)
    ∧ handle_waiting_hours resume locations db uid msg
        ((handle_waiting_hours resume locations db uid msg st).1) =
      handle_waiting_hours resume locations db uid msg st := by
  have hcond : (msg == "0" || msg == "back_to_loc") = false := by
    simp [h0, hb]
  have hmain : handle_waiting_hours resume locations db uid msg st = (st, .errEnterNumber)
      ∨ handle_waiting_hours resume locations db uid msg st = (st, .errHoursRange) := by
    unfold handle_waiting_hours
    rw [hcond]
    cases hd : isDigitL msg.data with
    | false => simp
    | true =>
      rcases hinv with h | h
      · rw [hd] at h; cases h
      · right
        rcases not_and_or.mp h with h' | h' <;> simp [hcond, hd, h']
  rcases hmain with h | h <;>
    exact ⟨by rw [h], by rw [h]; simp, by rw [h]; exact h⟩

/-- Witness for C8: the malformed input `"abc"` and the out-of-range input
`"30"` both leave the concrete `waiting_hours` session unchanged. -/
theorem invalid_input_frame_witness :
    (handle_waiting_hours noResume [] dbTwenty "u" "abc" stHours).1 = stHours
    ∧ (handle_waiting_hours noResume [] dbTwenty "u" "30" stHours).1 = stHours :=
  ⟨(invalid_input_frame noResume [] dbTwenty "u" "abc" stHours
      (by decide) (by decide) (.inl (by decide))).1,
   (invalid_input_frame noResume [] dbTwenty "u" "30" stHours
      (by decide) (by decide) (.inr (by decide))).1⟩

/-! ### C1 — hour capture: range validation, then the 24-hour budget -/

/-- C1: at the `waiting_hours` capture step, a digit input is first checked
against `[1, 24]` — this prior validation never consults the reports
table, so it rejects identically on every table — and a value whose sum
with the hours already committed for the user and date would exceed 24 is
rejected with the maximum addable amount `24 - alreadyCommitted` together
with the existing same-day records, leaving the session's state, buffer
and history untouched. -/
theorem hour_budget_reject (resume : String → Store → Store × Bool)
    (locations : List (Int × String)) (db : List Report) (uid : String)
    (msg : String) (st : Store)
    (hdig : isDigitL msg.data = true) (h0 : msg ≠ "0") :
    (¬(1 ≤ (digitsToNat msg.data : Int) ∧ (digitsToNat msg.data : Int) ≤ 24) →
      ∀ db' : List Report,
        handle_waiting_hours resume locations db' uid msg st =
          (st, .errHoursRange))
    ∧ (∀ hours existing : Int,
        hours = (digitsToNat msg.data : Int) →
        1 ≤ hours → hours ≤ 24 →
        existing = sum_hours_for_user_date db uid
          ((st.sess.data.work).getD {}).date none false →
        existing + hours > 24 →
        handle_waiting_hours resume locations db uid msg st =
          (st, .budgetExceeded (24 - existing) existing
            (db.filter (fun r =>
              r.user_id == uid &&
              sqlEq r.work_date ((st.sess.data.work).getD {}).date &&
              sqlNe r.location_grp "it" && sqlNe r.activity_grp "it")))) := by
  have hb : msg ≠ "back_to_loc" := by
    intro he
    rw [he] at hdig
    exact absurd hdig (by decide)
  have hcond : (msg == "0" || msg == "back_to_loc") = false := by
    simp [h0, hb]
  constructor
  · intro h db'
    unfold handle_waiting_hours
    rcases not_and_or.mp h with h' | h' <;> simp [hcond, hdig, h']
  · intro hours existing hh h1 h24 hex hover
    subst hh hex
    unfold handle_waiting_hours
    simp only [hcond, Bool.false_eq_true, if_false, hdig, Bool.not_true,
      Bool.false_eq_true, if_false]
    rw [if_neg (by simp [h1, h24]), if_pos (by omega)]

/-- Witness for C1: with 20 hours already committed on 2024-05-01, the
input `"30"` fails the prior range check (also on the empty table), and
the input `"5"` is rejected by the budget check reporting that at most 4
hours can be added, the session left unchanged. -/
theorem hour_budget_reject_witness :
    (handle_waiting_hours noResume [] [] "u" "30" stHours =
      (stHours, .errHoursRange))
    ∧ (handle_waiting_hours noResume [] dbTwenty "u" "5" stHours =
      (stHours, .budgetExceeded 4 20 dbTwenty)) := by
  constructor
  · exact (hour_budget_reject noResume [] [] "u" "30" stHours
      (by decide) (by decide)).1 (by decide) []
  · have h := (hour_budget_reject noResume [] dbTwenty "u" "5" stHours
      (by decide) (by decide)).2 5 20 (by decide) (by decide) (by decide)
      (by decide) (by decide)
    rw [h]
    decide

/-! ### C4 — the commit action does not re-run the budget validator -/

/-- Counterexample to C4: with the day already at the 24-hour cap, the
`confirm:worker` commit persists a further 5-hour record, pushing the
user's daily total to 29 — so the Hour-Budget Validator is not re-run at
commit and an over-budget record can be persisted through it. -/
theorem commit_no_recheck_cex :
    sum_hours_for_user_date dbFull "u" (some "2024-05-01") none false = 24
    ∧ (handle_confirm_worker dbFull "u" (some "U") stConfirm).2.2 =
        .savedReport 2 tempOver
    ∧ sum_hours_for_user_date
        (handle_confirm_worker dbFull "u" (some "U") stConfirm).2.1
        "u" (some "2024-05-01") none false = 29 := by
  refine ⟨by decide, rfl, by decide⟩

/-- C4 as amended: the `confirm:worker` commit performs no hour-budget
re-check at all — whenever a buffered temp report is present it persists
the record with exactly the buffered hours, whatever the user's committed
total for that date, and clears the session; the budget is enforced only
by the prior hours-capture step. -/
theorem commit_unconditional (db : List Report) (uid : String)
    (reg_name : Option String) (st : Store) (temp : TempReport)
    (h : st.sess.data.temp_report = some temp) :
    handle_confirm_worker db uid reg_name st =
      (clear_state st,
       db ++ [{ id := nextReportId db, user_id := uid, reg_name := reg_name,
                location := temp.location, location_grp := temp.loc_grp,
                activity := temp.activity, activity_grp := temp.act_grp,
                work_date := temp.work_date, hours := temp.hours }],
       .savedReport (nextReportId db) temp) := by
  unfold handle_confirm_worker insert_report
  rw [h]

/-- Witness for the amended C4 at a concrete over-budget input. -/
theorem commit_unconditional_witness :
    handle_confirm_worker dbFull "u" (some "U") stConfirm =
      (clear_state stConfirm,
       dbFull ++ [{ id := 2, user_id := "u", reg_name := some "U",
                    location := some "Поле 1", location_grp := some "поля",
                    activity := some "Прополка",
                    activity_grp := some "растениеводство",
                    work_date := some "2024-05-01", hours := 5 }],
       .savedReport 2 tempOver) := by
  have h := commit_unconditional dbFull "u" (some "U") stConfirm tempOver rfl
  rw [h]
  decide

/-! ### C7 — what the pushed history entry captures -/

/-- Counterexample to C7: a successful `brig_potato_rows` capture of
`"5"` pushes a history entry whose buffer already contains the value
merged by this very step (`rows = 5`), so the entry does not capture the
pre-merge buffer — the in-place merge happens on the live session dict
before `set_state` copies it into history. -/
theorem history_premerge_cex :
    ((handle_brig_potato_rows noResume "5" stRows).1.history.map
        (fun e => e.data)) =
      [{ Buffer.empty with date := some "2024-05-01", rows := some 5 }]
    ∧ ({ Buffer.empty with date := some "2024-05-01", rows := some 5 } : Buffer)
        ≠ stRows.sess.data := by
  refine ⟨by decide, by decide⟩


/-- The back callback chosen by the `brig_potato_rows` branch is never the
empty string, so the `set_state` push guard always passes. -/
theorem brigBackCb_ne (b : Buffer) : (brigBackCb b != "") = true := by
  unfold brigBackCb
  cases hd : b.date with
  | none => decide
  | some d =>
    by_cases hde : d = ""
    · subst hde; decide
    · have h2 : "brig:report:date:" ++ d ≠ "" := by
        intro hcon
        have hl := congrArg String.data hcon
        rw [String.data_append] at hl
        simp at hl
      simp [hde, h2]

/-- C7 as amended: on a successful forward transition of the
`brig_potato_rows` step the pushed history entry captures the current step
id together with the post-merge buffer — the buffer with this step's
captured value already merged in — and the session then moves to
`brig_potato_field` carrying that same buffer. -/
theorem history_postmerge (resume : String → Store → Store × Bool)
    (msg : String) (st : Store) (s0 : String)
    (hstate : st.sess.state = some s0) (hrest : st.restoring = false)
    (hdig : isDigitL (pyStrip msg).data = true) (h0 : pyStrip msg ≠ "0") :
    (handle_brig_potato_rows resume msg st).1.sess =
      ⟨some "brig_potato_field",
       { st.sess.data with rows := some (digitsToNat (pyStrip msg).data) }⟩
    ∧ (handle_brig_potato_rows resume msg st).1.history =
      (let merged : Buffer :=
        { st.sess.data with rows := some (digitsToNat (pyStrip msg).data) }
       let h := st.history ++ [⟨s0, merged, brigBackCb merged⟩]
       if h.length > 10 then h.drop (h.length - 10) else h) := by
  have hne : (pyStrip msg == "0") = false := by simp [h0]
  refine ⟨?_, ?_⟩ <;>
    simp only [handle_brig_potato_rows, brigRowsCapture, hne,
      Bool.false_eq_true, if_false, hdig, Bool.not_true, set_state,
      save_to_history, hrest, hstate, brigBackCb_ne, Option.isSome_some,
      Bool.and_self, Bool.and_true, Bool.true_and, if_true, ite_true,
      Bool.not_false]

/-- Witness for the amended C7: the concrete capture of `"5"` at
`brig_potato_rows`. -/
theorem history_postmerge_witness :
    (handle_brig_potato_rows noResume "5" stRows).1.sess =
      ⟨some "brig_potato_field",
       { stRows.sess.data with rows := some (digitsToNat (pyStrip "5").data) }⟩
    ∧ (handle_brig_potato_rows noResume "5" stRows).1.history =
      (let merged : Buffer :=
        { stRows.sess.data with rows := some (digitsToNat (pyStrip "5").data) }
       let h := stRows.history ++ [⟨"brig_potato_rows", merged, brigBackCb merged⟩]
       if h.length > 10 then h.drop (h.length - 10) else h) :=
  history_postmerge noResume "5" stRows "brig_potato_rows" rfl rfl
    (by decide) (by decide)

/-! ### C9 — the reserved cancel token "0" -/

/-- Counterexample to C9: at the `brig_potato_rows` step with an empty
history stack, submitting the reserved cancel token `"0"` does not
re-render the root menu — the failed `go_back` falls through to the digit
capture, which records `rows = 0` and advances the step to
`brig_potato_field`. -/
theorem cancel_rootfallback_cex :
    stRows.history = []
    ∧ (handle_brig_potato_rows noResume "0" stRows).1.sess.state =
        some "brig_potato_field"
    ∧ (handle_brig_potato_rows noResume "0" stRows).1.sess.data.rows =
        some 0 := by
  refine ⟨rfl, by decide, by decide⟩

/-- C9 as amended: at the `brig_potato_rows` step, `"0"` always attempts
`back` first — when the history stack is non-empty the step is restored
from the popped entry and nothing is captured; but when the history stack
is empty the token falls through to the normal capture, records
`rows = 0` and advances the step (there is no root-menu fallback in this
branch). -/
theorem cancel_token_spec (resume : String → Store → Store × Bool)
    (st : Store) (e : HEntry) (rest : List HEntry)
    (hhist : st.history = rest ++ [e]) (hcb : e.back_callback ≠ "")
    (hres : ∀ cb s, s.restoring = true → resume cb s = (s, false)) :
    handle_brig_potato_rows resume "0" st =
      ({ sess := ⟨some e.state, e.data⟩, history := rest, restoring := false },
       .backPerformed)
    ∧ ∀ st' : Store, st'.history = [] →
        (handle_brig_potato_rows resume "0" st').1.sess.state =
          some "brig_potato_field"
        ∧ (handle_brig_potato_rows resume "0" st').1.sess.data =
          { st'.sess.data with rows := some 0 } := by
  constructor
  · have hlast : st.history.getLast? = some e := by
      rw [hhist]; exact List.getLast?_concat rest
    have hdrop : st.history.dropLast = rest := by
      rw [hhist]; exact List.dropLast_concat
    have hcb' : (e.back_callback != "") = true := by simp [hcb]
    have h00 : (pyStrip "0" == "0") = true := by decide
    unfold handle_brig_potato_rows go_back
    rw [hlast]
    simp [hcb', hdrop, h00,
      hres e.back_callback ⟨⟨some e.state, e.data⟩, rest, true⟩ rfl]
  · intro st' hh
    have hnone : st'.history.getLast? = none := by rw [hh]; rfl
    have hd : isDigitL (pyStrip "0").data = true := by decide
    have hnum : digitsToNat (pyStrip "0").data = 0 := by decide
    unfold handle_brig_potato_rows go_back
    rw [hnone]
    unfold brigRowsCapture
    constructor <;> simp [hd, hnum, set_state]

/-- Witness for the amended C9 at concrete sessions — one with a history
entry to pop, one with an empty stack. -/
theorem cancel_token_spec_witness :
    handle_brig_potato_rows noResume "0"
      ⟨⟨some "brig_potato_rows", Buffer.empty⟩,
       [⟨"brig_date", Buffer.empty, "menu:brigadier"⟩], false⟩ =
      ({ sess := ⟨some "brig_date", Buffer.empty⟩, history := [],
         restoring := false }, .backPerformed)
    ∧ (handle_brig_potato_rows noResume "0" stRows).1.sess.state =
        some "brig_potato_field"
    ∧ (handle_brig_potato_rows noResume "0" stRows).1.sess.data =
        { stRows.sess.data with rows := some 0 } :=
  ⟨(cancel_token_spec noResume _ ⟨"brig_date", Buffer.empty, "menu:brigadier"⟩
      [] rfl (by decide) (fun _ _ _ => rfl)).1,
   ((cancel_token_spec noResume
      ⟨⟨some "brig_potato_rows", Buffer.empty⟩,
       [⟨"brig_date", Buffer.empty, "menu:brigadier"⟩], false⟩
      ⟨"brig_date", Buffer.empty, "menu:brigadier"⟩
      [] rfl (by decide) (fun _ _ _ => rfl)).2 stRows rfl).1,
   ((cancel_token_spec noResume
      ⟨⟨some "brig_potato_rows", Buffer.empty⟩,
       [⟨"brig_date", Buffer.empty, "menu:brigadier"⟩], false⟩
      ⟨"brig_date", Buffer.empty, "menu:brigadier"⟩
      [] rfl (by decide) (fun _ _ _ => rfl)).2 stRows rfl).2⟩

/-! ### C3 — `back` undoes forward transitions, history depth 10 -/

/-- The history trim written `[-10:]` in the source: keep the last 10. -/
def htrim (h : List HEntry) : List HEntry :=
  h.drop (h.length - 10)

/-- The conditional trim of `save_to_history` is the unconditional
last-10. -/
theorem trim_eq_htrim (h : List HEntry) :
    (if h.length > 10 then h.drop (h.length - 10) else h) = htrim h := by
  unfold htrim
  split
  · rfl
  · have : h.length - 10 = 0 := by omega
    rw [this, List.drop_zero]

/-- The trimmed stack never exceeds depth 10. -/
theorem htrim_len_le (h : List HEntry) : (htrim h).length ≤ 10 := by
  unfold htrim
  rw [List.length_drop]
  omega

/-- Trimming a pushed stack keeps the new entry on top of the trimmed
remainder of the old one. -/
theorem htrim_concat (h : List HEntry) (e : HEntry) :
    htrim (h ++ [e]) = h.drop (h.length + 1 - 10) ++ [e] := by
  unfold htrim
  rw [List.length_append, List.drop_append_eq_append_drop]
  have h2 : h.length + [e].length - 10 - h.length = 0 := by simp
  rw [h2, List.drop_zero]
  simp

/-- A forward transition from an active session with a truthy callback:
the entry capturing the session is pushed (trimmed to the last 10) and the
session moves on. -/
theorem forward_eq (st : Store) (t : FwdTrans) (s0 : String)
    (hst : st.sess.state = some s0) (hcb : t.cb ≠ "")
    (hrest : st.restoring = false) :
    forward st t =
      ⟨⟨some t.step, t.data⟩,
       htrim (st.history ++ [⟨s0, st.sess.data, t.cb⟩]), false⟩ := by
  have hcb' : (t.cb != "") = true := by simp [hcb]
  unfold forward set_state save_to_history
  simp only [hst, Option.isSome_some, hcb', Bool.and_self, Bool.and_true,
    Bool.true_and, if_true, ite_true, hrest, Bool.false_eq_true, if_false,
    trim_eq_htrim]

/-- `save_to_history` never touches the restoring flag. -/
theorem save_restoring (st : Store) (cb : String) :
    (save_to_history st cb).restoring = st.restoring := by
  unfold save_to_history
  split
  · rfl
  · split <;> rfl

/-- `save_to_history` keeps the history depth at most 10. -/
theorem save_len_le (st : Store) (cb : String)
    (h : st.history.length ≤ 10) :
    (save_to_history st cb).history.length ≤ 10 := by
  unfold save_to_history
  split
  · exact h
  · split
    · exact h
    · dsimp only
      rw [trim_eq_htrim]
      exact htrim_len_le _

/-- `set_state` never touches the restoring flag. -/
theorem set_state_restoring (st : Store) (state : Option String)
    (data : Option Buffer) (sh : Bool) (cb : Option String) :
    (set_state st state data sh cb).restoring = st.restoring := by
  unfold set_state
  cases cb with
  | none => rfl
  | some c =>
    dsimp only
    split
    · exact save_restoring st c
    · rfl

/-- `set_state` keeps the history depth at most 10. -/
theorem set_state_len_le (st : Store) (state : Option String)
    (data : Option Buffer) (sh : Bool) (cb : Option String)
    (h : st.history.length ≤ 10) :
    (set_state st state data sh cb).history.length ≤ 10 := by
  unfold set_state
  cases cb with
  | none => exact h
  | some c =>
    dsimp only
    split
    · exact save_len_le st c h
    · exact h

/-- `forward` never touches the restoring flag. -/
theorem forward_restoring (st : Store) (t : FwdTrans) :
    (forward st t).restoring = st.restoring :=
  set_state_restoring st (some t.step) (some t.data) true (some t.cb)

/-- `forward` keeps the history depth at most 10. -/
theorem forward_len_le (st : Store) (t : FwdTrans)
    (h : st.history.length ≤ 10) : (forward st t).history.length ≤ 10 :=
  set_state_len_le st (some t.step) (some t.data) true (some t.cb) h

/-- `forwards` distributes over append. -/
theorem forwards_append (st : Store) (ts₁ ts₂ : List FwdTrans) :
    forwards st (ts₁ ++ ts₂) = forwards (forwards st ts₁) ts₂ := by
  induction ts₁ generalizing st with
  | nil => rfl
  | cons t ts ih => exact ih (forward st t)

/-- Peeling one `back` off the end of an iteration. -/
theorem backs_succ' (resume : String → Store → Store × Bool) (n : Nat)
    (st : Store) :
    backs resume (n + 1) st = (go_back resume (backs resume n st)).1 := by
  induction n generalizing st with
  | zero => rfl
  | succ n ih =>
    show backs resume (n + 1) (go_back resume st).1 = _
    rw [ih]
    rfl

/-- `back` on an empty history stack is the identity. -/
theorem backs_nil (resume : String → Store → Store × Bool) (k : Nat)
    (st : Store) (h : st.history = []) : backs resume k st = st := by
  induction k with
  | zero => rfl
  | succ k ih =>
    show backs resume k (go_back resume st).1 = st
    have : (go_back resume st).1 = st := by
      unfold go_back
      rw [h]
      rfl
    rw [this]
    exact ih

/-- Splitting an iterated `back`. -/
theorem backs_add (resume : String → Store → Store × Bool) (a b : Nat)
    (st : Store) :
    backs resume (a + b) st = backs resume a (backs resume b st) := by
  induction b generalizing st with
  | zero => rfl
  | succ b ih =>
    show backs resume (a + b + 1) st = _
    show backs resume (a + b) (go_back resume st).1 = _
    rw [ih]
    rfl

/-- Dropping at most the prefix of a concatenation keeps the final
element. -/
theorem drop_concat_of_le (A : List HEntry) (e : HEntry) (m : Nat)
    (hm : m ≤ A.length) : (A ++ [e]).drop m = A.drop m ++ [e] := by
  rw [List.drop_append_eq_append_drop, Nat.sub_eq_zero_of_le hm,
    List.drop_zero]

/-- Round trip for at most 10 forward transitions: `k` backs after `k`
history-recording forward transitions restore the starting session, and
leave the history trimmed exactly as the pushes trimmed it. -/
theorem roundtrip_le (resume : String → Store → Store × Bool)
    (hres : ∀ cb s, s.restoring = true →
      (resume cb s).1.sess = s.sess ∧ (resume cb s).1.history = s.history ∧
      (resume cb s).2 = false) :
    ∀ (ts : List FwdTrans) (st : Store) (s0 : String),
      st.sess.state = some s0 → st.restoring = false →
      st.history.length ≤ 10 → ts.length ≤ 10 →
      (∀ t ∈ ts, t.cb ≠ "") →
      backs resume ts.length (forwards st ts) =
        ⟨st.sess, st.history.drop (st.history.length + ts.length - 10),
         false⟩ := by
  intro ts
  induction ts with
  | nil =>
    intro st s0 hst hrest hlen _ _
    show st = _
    simp only [List.length_nil]
    have h0 : st.history.length + 0 - 10 = 0 := by omega
    rw [h0, List.drop_zero]
    conv_lhs => rw [show st = ⟨st.sess, st.history, st.restoring⟩ from rfl]
    rw [hrest]
  | cons t ts ih =>
    intro st s0 hst hrest hlen hts hcb
    simp only [List.length_cons] at hts ⊢
    have hcbt : t.cb ≠ "" := hcb t (List.mem_cons_self t ts)
    have hcbt' : (t.cb != "") = true := by simp [hcbt]
    have hcbts : ∀ t' ∈ ts, t'.cb ≠ "" :=
      fun t' ht' => hcb t' (List.mem_cons_of_mem t ht')
    have hfwd : forward st t =
        ⟨⟨some t.step, t.data⟩,
         htrim (st.history ++ [⟨s0, st.sess.data, t.cb⟩]), false⟩ :=
      forward_eq st t s0 hst hcbt hrest
    have hsplit : htrim (st.history ++ [⟨s0, st.sess.data, t.cb⟩]) =
        st.history.drop (st.history.length + 1 - 10) ++
          [⟨s0, st.sess.data, t.cb⟩] := htrim_concat _ _
    show backs resume (ts.length + 1) (forwards (forward st t) ts) = _
    rw [backs_succ', hfwd]
    rw [ih (⟨⟨some t.step, t.data⟩,
          htrim (st.history ++ [(⟨s0, st.sess.data, t.cb⟩ : HEntry)]),
          false⟩ : Store)
        t.step rfl rfl (htrim_len_le _) (by omega) hcbts]
    rw [hsplit]
    generalize hA : List.drop (st.history.length + 1 - 10) st.history = A
    have hlenA : A.length = st.history.length -
        (st.history.length + 1 - 10) := by
      rw [← hA]
      exact List.length_drop _ _
    have hm : (A ++ [(⟨s0, st.sess.data, t.cb⟩ : HEntry)]).length +
        ts.length - 10 ≤ A.length := by
      simp only [List.length_append, List.length_singleton]
      omega
    rw [drop_concat_of_le _ _ _ hm]
    unfold go_back
    dsimp only
    simp only [List.getLast?_concat, List.dropLast_concat, hcbt', if_true,
      ite_true]
    obtain ⟨h1, h2, h3⟩ := hres t.cb
      ⟨⟨some s0, st.sess.data⟩,
       A.drop ((A ++ [(⟨s0, st.sess.data, t.cb⟩ : HEntry)]).length +
         ts.length - 10), true⟩ rfl
    rw [h1, h2]
    have hsess : (⟨some s0, st.sess.data⟩ : Sess) = st.sess := by
      rw [← hst]
    rw [hsess]
    dsimp only
    have hlen1 : (A ++ [(⟨s0, st.sess.data, t.cb⟩ : HEntry)]).length =
        A.length + 1 := by
      rw [List.length_append]
      rfl
    rw [hlen1]
    congr 1
    rw [← hA, List.drop_drop]
    congr 1
    simp only [List.length_drop]
    omega

/-- A forward transition always lands on its declared step. -/
theorem forward_state (st : Store) (t : FwdTrans) :
    (forward st t).sess.state = some t.step := rfl

/-- `forwards` keeps the session active. -/
theorem forwards_state_isSome (ts : List FwdTrans) (st : Store)
    (h : st.sess.state.isSome = true) :
    (forwards st ts).sess.state.isSome = true := by
  induction ts generalizing st with
  | nil => exact h
  | cons t ts ih => exact ih (forward st t) (by rw [forward_state]; rfl)

/-- `forwards` never touches the restoring flag. -/
theorem forwards_restoring (ts : List FwdTrans) (st : Store) :
    (forwards st ts).restoring = st.restoring := by
  induction ts generalizing st with
  | nil => rfl
  | cons t ts ih =>
    show (forwards (forward st t) ts).restoring = _
    rw [ih, forward_restoring]

/-- `forwards` keeps the history depth at most 10. -/
theorem forwards_len_le (ts : List FwdTrans) (st : Store)
    (h : st.history.length ≤ 10) :
    (forwards st ts).history.length ≤ 10 := by
  induction ts generalizing st with
  | nil => exact h
  | cons t ts ih => exact ih (forward st t) (forward_len_le st t h)

/-- C3: running `back` `k` times after `k` successful forward transitions
that each pushed a history entry restores exactly the `(step, buffer)`
pair that existed before those transitions whenever `k ≤ 10`; in general
the restoration reaches only the oldest retained entry, because the stack
keeps the last 10 entries and silently drops the oldest on overflow — for
`k > 10` the `k`-fold `back` lands on the session as it was after the
first `k - 10` transitions. -/
theorem back_roundtrip (resume : String → Store → Store × Bool)
    (ts : List FwdTrans) (st : Store) (s0 : String)
    (hres : ∀ cb s, s.restoring = true →
      (resume cb s).1.sess = s.sess ∧ (resume cb s).1.history = s.history ∧
      (resume cb s).2 = false)
    (hst : st.sess.state = some s0) (hrest : st.restoring = false)
    (hlen : st.history.length ≤ 10) (hcb : ∀ t ∈ ts, t.cb ≠ "") :
    (ts.length ≤ 10 →
      (backs resume ts.length (forwards st ts)).sess = st.sess)
    ∧ (backs resume ts.length (forwards st ts)).sess =
        (forwards st (ts.take (ts.length - 10))).sess := by
  by_cases hle : ts.length ≤ 10
  · have h := roundtrip_le resume hres ts st s0 hst hrest hlen hle hcb
    have htake : ts.take (ts.length - 10) = [] := by
      have h0 : ts.length - 10 = 0 := by omega
      rw [h0, List.take_zero]
    refine ⟨fun _ => by rw [h], ?_⟩
    rw [h, htake]
    rfl
  · push_neg at hle
    refine ⟨fun hco => absurd hco (by omega), ?_⟩
    have h1 : forwards st ts =
        forwards (forwards st (ts.take (ts.length - 10)))
          (ts.drop (ts.length - 10)) := by
      conv_lhs => rw [← List.take_append_drop (ts.length - 10) ts]
      exact forwards_append _ _ _
    have hlen₂ : (ts.drop (ts.length - 10)).length = 10 := by
      rw [List.length_drop]
      omega
    have hcb₂ : ∀ t ∈ ts.drop (ts.length - 10), t.cb ≠ "" :=
      fun t ht => hcb t (List.drop_subset _ _ ht)
    obtain ⟨s1, hs1⟩ := Option.isSome_iff_exists.mp
      (forwards_state_isSome (ts.take (ts.length - 10)) st
        (by rw [hst]; rfl))
    have hrest₁ : (forwards st (ts.take (ts.length - 10))).restoring =
        false := by rw [forwards_restoring, hrest]
    have hlen₁ :
        (forwards st (ts.take (ts.length - 10))).history.length ≤ 10 :=
      forwards_len_le _ _ hlen
    have hrt := roundtrip_le resume hres (ts.drop (ts.length - 10))
      (forwards st (ts.take (ts.length - 10))) s1 hs1 hrest₁ hlen₁
      (by omega) hcb₂
    have hdropnil :
        (forwards st (ts.take (ts.length - 10))).history.drop
          ((forwards st (ts.take (ts.length - 10))).history.length +
            (ts.drop (ts.length - 10)).length - 10) = [] :=
      List.drop_eq_nil_of_le (by omega)
    rw [h1]
    have hcount : ∀ X : Store, backs resume ts.length X =
        backs resume (ts.length - 10)
          (backs resume (ts.drop (ts.length - 10)).length X) := by
      intro X
      rw [← backs_add]
      congr 1
      omega
    rw [hcount, hrt, hdropnil]
    rw [backs_nil resume (ts.length - 10) _ rfl]

/-- Witness for C3: two forward transitions from `stRows` followed by two
backs restore exactly the starting session. -/
theorem back_roundtrip_witness :
    (backs noResume 2 (forwards stRows
      [⟨"brig_potato_field", { Buffer.empty with rows := some 4 },
        "menu:brigadier"⟩,
       ⟨"brig_potato_bags", { Buffer.empty with field := some "Север" },
        "back:prev"⟩])).sess = stRows.sess :=
  (back_roundtrip noResume
    [⟨"brig_potato_field", { Buffer.empty with rows := some 4 },
      "menu:brigadier"⟩,
     ⟨"brig_potato_bags", { Buffer.empty with field := some "Север" },
      "back:prev"⟩] stRows "brig_potato_rows"
    (fun _ _ _ => ⟨rfl, rfl, rfl⟩) rfl rfl (by decide)
    (by decide)).1 (by decide)

/-! ### C2 — the fuzzy resolver -/

/-- The denominator of a `ratioVal` is positive. -/
theorem ratioVal_pos (a b : List Char) : 0 < (ratioVal a b).2 := by
  unfold ratioVal
  dsimp only
  split
  · exact Nat.zero_lt_one
  · omega

/-- `ratioLe` is reflexive. -/
theorem ratioLe_refl (x b : List Char) : ratioLe x x b := le_refl _

/-- Cross-multiplied transitivity with a positive middle denominator. -/
theorem cross_trans {x1 x2 y1 y2 z1 z2 : Nat} (hy : 0 < y2)
    (h1 : x1 * y2 ≤ y1 * x2) (h2 : y1 * z2 ≤ z1 * y2) :
    x1 * z2 ≤ z1 * x2 := by
  apply Nat.le_of_mul_le_mul_right _ hy
  calc x1 * z2 * y2 = x1 * y2 * z2 := by ring
    _ ≤ y1 * x2 * z2 := Nat.mul_le_mul_right z2 h1
    _ = y1 * z2 * x2 := by ring
    _ ≤ z1 * y2 * x2 := Nat.mul_le_mul_right x2 h2
    _ = z1 * x2 * y2 := by ring

/-- `ratioLe` is transitive. -/
theorem ratioLe_trans {x y z : List Char} {b : List Char}
    (h1 : ratioLe x y b) (h2 : ratioLe y z b) : ratioLe x z b :=
  cross_trans (ratioVal_pos y b) h1 h2

/-- A tuple-larger candidate has a ratio at least as large. -/
theorem tupGT_true_ratioLe {x y : String} {b : List Char}
    (h : tupGT x y b = true) : ratioLe y.data x.data b := by
  unfold tupGT at h
  rcases Bool.or_eq_true_iff.mp h with h' | h'
  · exact le_of_lt (of_decide_eq_true h')
  · have he := eq_of_beq ((Bool.and_eq_true _ _).mp h').1
    exact le_of_eq he.symm

/-- A tuple-not-larger candidate has a ratio at most as large. -/
theorem tupGT_false_ratioLe {x y : String} {b : List Char}
    (h : tupGT x y b = false) : ratioLe x.data y.data b := by
  unfold tupGT at h
  simp only [Bool.or_eq_false_iff, decide_eq_false_iff_not] at h
  exact Nat.le_of_not_lt h.1

/-- One fold step from a `some` accumulator stays `some`. -/
theorem gcmStep_some (b : List Char) (x y : String) :
    ∃ z, gcmStep b x (some y) = some z := by
  unfold gcmStep
  split
  · dsimp only
    split
    · exact ⟨x, rfl⟩
    · exact ⟨y, rfl⟩
  · exact ⟨y, rfl⟩

/-- The fold never loses a `some` accumulator. -/
theorem gcmFold_some (b : List Char) :
    ∀ (l : List String) (y : String), gcmFold b l (some y) ≠ none := by
  intro l
  induction l with
  | nil => intro y h; cases h
  | cons x l ih =>
    intro y
    show gcmFold b l (gcmStep b x (some y)) ≠ none
    obtain ⟨z, hz⟩ := gcmStep_some b x y
    rw [hz]
    exact ih z

/-- A `none` outcome means no candidate passed the cutoff. -/
theorem gcmFold_none (b : List Char) :
    ∀ l : List String, gcmFold b l none = none →
      ∀ x ∈ l, qualifies04 x.data b = false := by
  intro l
  induction l with
  | nil => intro _ x hx; cases hx
  | cons x l ih =>
    intro h x' hx'
    by_cases hq : qualifies04 x.data b = true
    · exfalso
      have hstep : gcmStep b x none = some x := by
        unfold gcmStep
        rw [if_pos hq]
      rw [show gcmFold b (x :: l) none =
        gcmFold b l (gcmStep b x none) from rfl, hstep] at h
      exact gcmFold_some b l x h
    · have hstep : gcmStep b x none = none := by
        unfold gcmStep
        rw [if_neg hq]
      rw [show gcmFold b (x :: l) none =
        gcmFold b l (gcmStep b x none) from rfl, hstep] at h
      rcases List.mem_cons.mp hx' with rfl | hm
      · exact Bool.not_eq_true _ ▸ (Bool.eq_false_iff.mpr hq)
      · exact ih h x' hm

/-- The fold's `some` outcome is a qualifying key (or the start value)
whose ratio dominates the start value and every qualifying key of the
list. -/
theorem gcmFold_max (b : List Char) :
    ∀ (l : List String) (init : Option String) (k : String),
      gcmFold b l init = some k →
      (init = some k ∨ (k ∈ l ∧ qualifies04 k.data b = true))
      ∧ (∀ y, init = some y → ratioLe y.data k.data b)
      ∧ (∀ x ∈ l, qualifies04 x.data b = true → ratioLe x.data k.data b) := by
  intro l
  induction l with
  | nil =>
    intro init k h
    refine ⟨Or.inl h, fun y hy => ?_, fun x hx => absurd hx
      (List.not_mem_nil x)⟩
    rw [hy] at h
    injection h with h
    rw [h]
    exact ratioLe_refl _ b
  | cons x l ih =>
    intro init k h
    rw [show gcmFold b (x :: l) init =
      gcmFold b l (gcmStep b x init) from rfl] at h
    by_cases hq : qualifies04 x.data b = true
    · cases init with
      | none =>
        have hstep : gcmStep b x none = some x := by
          unfold gcmStep
          rw [if_pos hq]
        rw [hstep] at h
        obtain ⟨hmem, hinit, hlist⟩ := ih (some x) k h
        have hxk : ratioLe x.data k.data b := hinit x rfl
        refine ⟨?_, ?_, ?_⟩
        · rcases hmem with he | hm
          · injection he with he
            subst he
            exact Or.inr ⟨List.mem_cons_self x l, hq⟩
          · exact Or.inr ⟨List.mem_cons_of_mem x hm.1, hm.2⟩
        · intro y hy
          exact absurd hy (by simp)
        · intro x' hx' hq'
          rcases List.mem_cons.mp hx' with rfl | hm
          · exact hxk
          · exact hlist x' hm hq'
      | some y =>
        by_cases hgt : tupGT x y b = true
        · have hstep : gcmStep b x (some y) = some x := by
            unfold gcmStep
            rw [if_pos hq]
            dsimp only
            rw [if_pos hgt]
          rw [hstep] at h
          obtain ⟨hmem, hinit, hlist⟩ := ih (some x) k h
          have hxk : ratioLe x.data k.data b := hinit x rfl
          refine ⟨?_, fun y' hy' => ?_, fun x' hx' hq' => ?_⟩
          · rcases hmem with he | hm
            · injection he with he
              subst he
              exact Or.inr ⟨List.mem_cons_self x l, hq⟩
            · exact Or.inr ⟨List.mem_cons_of_mem x hm.1, hm.2⟩
          · injection hy' with hy'
            rw [← hy']
            exact ratioLe_trans (tupGT_true_ratioLe hgt) hxk
          · rcases List.mem_cons.mp hx' with rfl | hm
            · exact hxk
            · exact hlist x' hm hq'
        · have hstep : gcmStep b x (some y) = some y := by
            unfold gcmStep
            rw [if_pos hq]
            dsimp only
            rw [if_neg (by simpa using hgt)]
          rw [hstep] at h
          obtain ⟨hmem, hinit, hlist⟩ := ih (some y) k h
          have hyk : ratioLe y.data k.data b := hinit y rfl
          refine ⟨?_, fun y' hy' => ?_, fun x' hx' hq' => ?_⟩
          · rcases hmem with he | hm
            · exact Or.inl he
            · exact Or.inr ⟨List.mem_cons_of_mem x hm.1, hm.2⟩
          · injection hy' with hy'
            rw [← hy']
            exact hyk
          · rcases List.mem_cons.mp hx' with rfl | hm
            · exact ratioLe_trans
                (tupGT_false_ratioLe (Bool.eq_false_iff.mpr hgt)) hyk
            · exact hlist x' hm hq'
    · have hstep : gcmStep b x init = init := by
        unfold gcmStep
        rw [if_neg hq]
      rw [hstep] at h
      obtain ⟨hmem, hinit, hlist⟩ := ih init k h
      refine ⟨?_, hinit, fun x' hx' hq' => ?_⟩
      · rcases hmem with he | hm
        · exact Or.inl he
        · exact Or.inr ⟨List.mem_cons_of_mem x hm.1, hm.2⟩
      · rcases List.mem_cons.mp hx' with rfl | hm
        · exact absurd hq' hq
        · exact hlist x' hm hq'

/-- Every entry of `dictInsert m k v` is an old entry or the new pair. -/
theorem dictInsert_mem_src (m : List (String × (Int × String)))
    (k : String) (v : Int × String) (p : String × (Int × String))
    (hp : p ∈ dictInsert m k v) : p ∈ m ∨ p = (k, v) := by
  unfold dictInsert at hp
  split at hp
  · obtain ⟨q, hq, hqe⟩ := List.mem_map.mp hp
    split at hqe
    · exact Or.inr hqe.symm
    · exact Or.inl (hqe ▸ hq)
  · rcases List.mem_append.mp hp with h | h
    · exact Or.inl h
    · exact Or.inr (List.mem_singleton.mp h)

/-- `dictInsert` keeps every key that was present. -/
theorem dictInsert_key_pres (m : List (String × (Int × String)))
    (k : String) (v : Int × String) (k0 : String)
    (h : ∃ v', (k0, v') ∈ m) :
    ∃ v', (k0, v') ∈ dictInsert m k v := by
  obtain ⟨v0, h0⟩ := h
  unfold dictInsert
  split
  · by_cases hk : (k0 == k) = true
    · refine ⟨v, List.mem_map.mpr ⟨(k0, v0), h0, ?_⟩⟩
      have : k0 = k := eq_of_beq hk
      rw [if_pos hk, this]
    · exact ⟨v0, List.mem_map.mpr ⟨(k0, v0), h0,
        by rw [if_neg (by simpa using hk)]⟩⟩
  · exact ⟨v0, List.mem_append.mpr (Or.inl h0)⟩

/-- `dictInsert` makes its own key present. -/
theorem dictInsert_self_key (m : List (String × (Int × String)))
    (k : String) (v : Int × String) :
    ∃ v', (k, v') ∈ dictInsert m k v := by
  unfold dictInsert
  split
  · rename_i hany
    obtain ⟨q, hq, hq2⟩ := List.any_eq_true.mp hany
    refine ⟨v, List.mem_map.mpr ⟨q, hq, ?_⟩⟩
    rw [if_pos hq2]
  · exact ⟨v, List.mem_append.mpr (Or.inr (List.mem_singleton.mpr rfl))⟩

/-- Every entry of `name_map items` is an item keyed by its own
lower-cased label. -/
theorem name_map_sound (items : List (Int × String)) :
    ∀ p ∈ name_map items, p.2 ∈ items ∧ strLower p.2.2 = p.1 := by
  have main : ∀ (l m : List _), (∀ it ∈ l, it ∈ items) →
      (∀ p ∈ m, p.2 ∈ items ∧ strLower p.2.2 = p.1) →
      ∀ p ∈ List.foldl (fun m it => dictInsert m (strLower it.2) it) m l,
        p.2 ∈ items ∧ strLower p.2.2 = p.1 := by
    intro l
    induction l with
    | nil =>
      intro m _ hm p hp
      exact hm p hp
    | cons it l ih =>
      intro m hl hm p hp
      refine ih (dictInsert m (strLower it.2) it)
        (fun x hx => hl x (List.mem_cons_of_mem _ hx)) ?_ p hp
      intro q hq
      rcases dictInsert_mem_src m (strLower it.2) it q hq with h | h
      · exact hm q h
      · rw [h]
        exact ⟨hl it (List.mem_cons_self it l), rfl⟩
  intro p hp
  exact main items [] (fun _ h => h)
    (fun q hq => absurd hq (List.not_mem_nil q)) p hp

/-- Every item's lower-cased label is a key of `name_map items`. -/
theorem name_map_complete (items : List (Int × String)) :
    ∀ it ∈ items, ∃ v, (strLower it.2, v) ∈ name_map items := by
  have main : ∀ (l m : List _) (k0 : String),
      ((∃ it ∈ l, strLower it.2 = k0) ∨ ∃ v', (k0, v') ∈ m) →
      ∃ v', (k0, v') ∈
        List.foldl (fun m it => dictInsert m (strLower it.2) it) m l := by
    intro l
    induction l with
    | nil =>
      intro m k0 h
      rcases h with ⟨it, hit, _⟩ | hv
      · exact absurd hit (List.not_mem_nil it)
      · exact hv
    | cons it l ih =>
      intro m k0 h
      refine ih (dictInsert m (strLower it.2) it) k0 ?_
      rcases h with ⟨it', hit', hk⟩ | hv
      · rcases List.mem_cons.mp hit' with rfl | hm
        · right
          rw [← hk]
          exact dictInsert_self_key m (strLower it'.2) it'
        · exact Or.inl ⟨it', hm, hk⟩
      · exact Or.inr (dictInsert_key_pres m (strLower it.2) it k0 hv)
  intro it hit
  exact main items [] (strLower it.2) (Or.inl ⟨it, hit, rfl⟩)

/-- A successful `List.lookup` pinpoints a stored pair. -/
theorem lookup_mem_pairs (k : String)
    (nm : List (String × (Int × String))) (v : Int × String)
    (h : List.lookup k nm = some v) : (k, v) ∈ nm := by
  induction nm with
  | nil => cases h
  | cons p nm ih =>
    obtain ⟨k', v'⟩ := p
    by_cases hk : (k == k') = true
    · rw [List.lookup, hk] at h
      injection h with h
      have : k = k' := eq_of_beq hk
      rw [this, h]
      exact List.mem_cons_self _ _
    · rw [List.lookup, Bool.eq_false_iff.mpr hk] at h
      exact List.mem_cons_of_mem _ (ih h)

/-- A present key makes `List.lookup` succeed. -/
theorem lookup_isSome_of_key (k : String)
    (nm : List (String × (Int × String)))
    (h : ∃ v, (k, v) ∈ nm) : (List.lookup k nm).isSome = true := by
  induction nm with
  | nil =>
    obtain ⟨v, hv⟩ := h
    exact absurd hv (List.not_mem_nil _)
  | cons p nm ih =>
    obtain ⟨k', v'⟩ := p
    by_cases hk : (k == k') = true
    · rw [List.lookup, hk]
      rfl
    · rw [List.lookup, Bool.eq_false_iff.mpr hk]
      obtain ⟨v, hv⟩ := h
      rcases List.mem_cons.mp hv with he | hm
      · injection he with h1 h2
        exact absurd (by rw [h1]; exact beq_self_eq_true k' : (k == k') = true) hk
      · exact ih ⟨v, hm⟩

/-- C2: the fuzzy resolver. (1) Blank input (after trimming) resolves to
none. (2) An all-digit input naming a valid 1-based index returns that
candidate directly, whatever the labels are — the exact-index branch wins.
(3) Otherwise the result, when `some`, is a candidate whose lower-cased
label passes the 0.4 similarity cutoff against the lower-cased input and
whose ratio is at least that of every other candidate clearing the
cutoff; and the result is none exactly when no candidate clears it. -/
theorem fuzzy_resolver_spec (user_input : String)
    (items : List (Int × String)) :
    (pyStripL user_input.data = [] → find_best_match user_input items = none)
    ∧ (isDigitL (pyStripL user_input.data) = true →
        1 ≤ digitsToNat (pyStripL user_input.data) →
        digitsToNat (pyStripL user_input.data) ≤ items.length →
        find_best_match user_input items =
          items.get? (digitsToNat (pyStripL user_input.data) - 1))
    ∧ (pyStripL user_input.data ≠ [] →
        (isDigitL (pyStripL user_input.data) = true →
          ¬(1 ≤ digitsToNat (pyStripL user_input.data) ∧
            digitsToNat (pyStripL user_input.data) ≤ items.length)) →
        (∀ res, find_best_match user_input items = some res →
          res ∈ items ∧
          qualifies04 (strLower res.2).data
            ((pyStripL user_input.data).map pyLower) = true ∧
          ∀ it ∈ items,
            qualifies04 (strLower it.2).data
              ((pyStripL user_input.data).map pyLower) = true →
            ratioLe (strLower it.2).data (strLower res.2).data
              ((pyStripL user_input.data).map pyLower))
        ∧ (find_best_match user_input items = none →
            ∀ it ∈ items,
              qualifies04 (strLower it.2).data
                ((pyStripL user_input.data).map pyLower) = false)) := by
  refine ⟨?_, ?_, ?_⟩
  · intro h
    unfold find_best_match
    rw [h]
    rfl
  · intro hd h1 h2
    have hne : (pyStripL user_input.data).isEmpty = false := by
      cases hcase : pyStripL user_input.data with
      | nil =>
        rw [hcase] at hd
        cases hd
      | cons c cs => rfl
    obtain ⟨it, hit⟩ : ∃ it,
        items.get? (digitsToNat (pyStripL user_input.data) - 1) = some it :=
      ⟨_, List.get?_eq_get (by omega)⟩
    unfold find_best_match
    dsimp only
    rw [hne]
    simp only [Bool.false_eq_true, if_false]
    rw [if_pos hd, if_pos ⟨h1, h2⟩, hit]
  · intro hne hnum
    have hie : (pyStripL user_input.data).isEmpty = false := by
      cases hcase : pyStripL user_input.data with
      | nil => exact absurd hcase hne
      | cons c cs => rfl
    have hfind : find_best_match user_input items =
        (match get_close_matches1 ((pyStripL user_input.data).map pyLower)
            ((name_map items).map (·.1)) with
         | some k => List.lookup k (name_map items)
         | none => none) := by
      unfold find_best_match
      dsimp only
      rw [hie]
      simp only [Bool.false_eq_true, if_false]
      by_cases hd : isDigitL (pyStripL user_input.data) = true
      · rw [if_pos hd, if_neg (hnum hd)]
      · rw [if_neg hd]
    rw [hfind]
    cases hg : get_close_matches1 ((pyStripL user_input.data).map pyLower)
        ((name_map items).map (·.1)) with
    | some k =>
      dsimp only
      obtain ⟨hmemq, _, hmax⟩ := gcmFold_max
        ((pyStripL user_input.data).map pyLower)
        ((name_map items).map (·.1)) none k
        (show gcmFold ((pyStripL user_input.data).map pyLower)
          ((name_map items).map (·.1)) none = some k from hg)
      rcases hmemq with he | ⟨hkmem, hkq⟩
      · cases he
      obtain ⟨p, hp, hpk⟩ := List.mem_map.mp hkmem
      have hkey : ∃ v, (k, v) ∈ name_map items := by
        refine ⟨p.2, ?_⟩
        rw [← hpk]
        exact hp
      obtain ⟨v, hv⟩ := Option.isSome_iff_exists.mp
        (lookup_isSome_of_key k (name_map items) hkey)
      have hpair := lookup_mem_pairs k (name_map items) v hv
      obtain ⟨hvitems, hvkey⟩ := name_map_sound items (k, v) hpair
      rw [hv]
      refine ⟨fun res hres => ?_, fun hnone => by cases hnone⟩
      injection hres with hres
      subst hres
      have hresk : (strLower v.2).data = k.data := by
        rw [show strLower v.2 = k from hvkey]
      refine ⟨hvitems, ?_, ?_⟩
      · rw [hresk]
        exact hkq
      · intro it hit hq
        obtain ⟨v', hv'⟩ := name_map_complete items it hit
        have hkeymem : strLower it.2 ∈ (name_map items).map (·.1) :=
          List.mem_map.mpr ⟨(strLower it.2, v'), hv', rfl⟩
        have := hmax (strLower it.2) hkeymem hq
        unfold ratioLe at this ⊢
        rw [hresk]
        exact this
    | none =>
      dsimp only
      refine ⟨?_, ?_⟩
      · intro res hres
        cases hres
      intro _ it hit
      obtain ⟨v', hv'⟩ := name_map_complete items it hit
      have hkeymem : strLower it.2 ∈ (name_map items).map (·.1) :=
        List.mem_map.mpr ⟨(strLower it.2, v'), hv', rfl⟩
      exact gcmFold_none ((pyStripL user_input.data).map pyLower)
        ((name_map items).map (·.1))
        (show gcmFold ((pyStripL user_input.data).map pyLower)
          ((name_map items).map (·.1)) none = none from hg)
        (strLower it.2) hkeymem

/-- Witness for C2: the exact-index branch at input `"2"`, and the fuzzy
branch at input `"abd"`, which resolves to the 0.4-qualifying best match
`"abc"`. -/
theorem fuzzy_resolver_spec_witness :
    find_best_match "2" [((1 : Int), "abc"), (2, "xyz")] = some (2, "xyz")
    ∧ ((1, "abc") ∈ [((1 : Int), "abc")] ∧
       qualifies04 (strLower "abc").data
         ((pyStripL "abd".data).map pyLower) = true ∧
       ∀ it ∈ [((1 : Int), "abc")],
         qualifies04 (strLower it.2).data
           ((pyStripL "abd".data).map pyLower) = true →
         ratioLe (strLower it.2).data (strLower "abc").data
           ((pyStripL "abd".data).map pyLower)) := by
  constructor
  · rw [(fuzzy_resolver_spec "2" [((1 : Int), "abc"), (2, "xyz")]).2.1
      (by decide) (by decide) (by decide)]
    decide
  · exact ((fuzzy_resolver_spec "abd" [((1 : Int), "abc")]).2.2
      (by decide) (by decide)).1 (1, "abc") (by decide)
